import Mathlib

/-!
# Verification of fibsem-os: autolamella workflow runners and napari pattern rendering

Shallow embedding of `src/fibsem/ui/napari/patterns.py` and
`src/fibsem/applications/autolamella/workflows/runners.py`.

Conventions:
* Python floats are modelled as exact rationals (`ℚ`); the transcendental
  functions `np.cos` / `np.sin` are uninterpreted parameters `tcos tsin : ℚ → ℚ`,
  applied exactly where the source applies them.
* Python `int(x)` on a float truncates toward zero; this is `pyInt` below.
* Image shapes are `(height, width)` pairs of naturals, as in the source where
  `shape[0]` is the number of rows and `shape[1]` the number of columns.
* napari shape vertices are `(y, x)` pairs, as the source builds `[[y, x], ...]`.
-/

/-- Python `int(x)` for a float `x`: truncation toward zero. -/
def pyInt (x : ℚ) : ℤ := if 0 ≤ x then ⌊x⌋ else ⌈x⌉

/-- From `patterns.py`: `get_image_pixel_centre`.
`icy, icx = shape[0] // 2, shape[1] // 2`, returned as `(icy, icx)`. -/
def get_image_pixel_centre (shape : Nat × Nat) : Nat × Nat :=
  (shape.1 / 2, shape.2 / 2)

/-- Geometry carried by `FibsemRectangleSettings` (fields used by
`convert_pattern_to_napari_rect`). -/
structure FibsemRectangleSettings where
  width : ℚ
  height : ℚ
  centre_x : ℚ
  centre_y : ℚ
  rotation : ℚ
deriving DecidableEq, Repr

/-- Geometry carried by `FibsemCircleSettings` (fields used by
`convert_pattern_to_napari_circle`). -/
structure FibsemCircleSettings where
  radius : ℚ
  centre_x : ℚ
  centre_y : ℚ
deriving DecidableEq, Repr

/-- Geometry carried by `FibsemLineSettings` (fields used by
`convert_pattern_to_napari_line`). -/
structure FibsemLineSettings where
  start_x : ℚ
  start_y : ℚ
  end_x : ℚ
  end_y : ℚ
deriving DecidableEq, Repr

/-- A pattern-settings object, tagged by its Python type.  The source dispatches
on `type(pattern_settings)` through the dict `NAPARI_DRAWING_FUNCTIONS`.
`FibsemBitmapSettings` is omitted: its drawing function opens an image file
(external IO, outside this spec's scope).  `unsupportedSettings` stands for any
settings type with no entry in `NAPARI_DRAWING_FUNCTIONS`. -/
inductive FibsemPatternSettings where
  | rect (s : FibsemRectangleSettings)
  | circle (s : FibsemCircleSettings)
  | line (s : FibsemLineSettings)
  | unsupportedSettings
deriving DecidableEq, Repr

/-- From `patterns.py`: `convert_pattern_to_napari_rect`.
`tcos`/`tsin` model `np.cos`/`np.sin`. Returns the napari shape
`[[py0, px0], [py1, px1], [py2, px2], [py3, px3]]` as `(y, x)` pairs. -/
def convert_pattern_to_napari_rect (tcos tsin : ℚ → ℚ)
    (pattern_settings : FibsemRectangleSettings) (shape : Nat × Nat)
    (pixelsize : ℚ) : List (ℚ × ℚ) :=
  let c := get_image_pixel_centre shape
  let icy : ℚ := c.1
  let icx : ℚ := c.2
  let w : ℚ := pyInt (pattern_settings.width / pixelsize)
  let h : ℚ := pyInt (pattern_settings.height / pixelsize)
  let cx : ℚ := pyInt (icx + pattern_settings.centre_x / pixelsize)
  let cy : ℚ := pyInt (icy - pattern_settings.centre_y / pixelsize)
  let r : ℚ := -pattern_settings.rotation
  let xmin : ℚ := -w / 2
  let xmax : ℚ := w / 2
  let ymin : ℚ := -h / 2
  let ymax : ℚ := h / 2
  let px0 := cx + (xmin * tcos r - ymin * tsin r)
  let py0 := cy + (xmin * tsin r + ymin * tcos r)
  let px1 := cx + (xmax * tcos r - ymin * tsin r)
  let py1 := cy + (xmax * tsin r + ymin * tcos r)
  let px2 := cx + (xmax * tcos r - ymax * tsin r)
  let py2 := cy + (xmax * tsin r + ymax * tcos r)
  let px3 := cx + (xmin * tcos r - ymax * tsin r)
  let py3 := cy + (xmin * tsin r + ymax * tcos r)
  [(py0, px0), (py1, px1), (py2, px2), (py3, px3)]

/-- From `patterns.py`: `convert_pattern_to_napari_circle`.
Returns the bounding box `[[ymin, xmin], [ymin, xmax], [ymax, xmax], [ymax, xmin]]`. -/
def convert_pattern_to_napari_circle
    (pattern_settings : FibsemCircleSettings) (shape : Nat × Nat)
    (pixelsize : ℚ) : List (ℚ × ℚ) :=
  let c := get_image_pixel_centre shape
  let icy : ℚ := c.1
  let icx : ℚ := c.2
  let r : ℤ := pyInt (pattern_settings.radius / pixelsize)
  let cx : ℤ := pyInt (icx + pattern_settings.centre_x / pixelsize)
  let cy : ℤ := pyInt (icy - pattern_settings.centre_y / pixelsize)
  let xmin : ℚ := (cx - r : ℤ)
  let ymin : ℚ := (cy - r : ℤ)
  let xmax : ℚ := (cx + r : ℤ)
  let ymax : ℚ := (cy + r : ℤ)
  [(ymin, xmin), (ymin, xmax), (ymax, xmax), (ymax, xmin)]

/-- From `patterns.py`: `convert_pattern_to_napari_line`.
Returns `[[py0, px0], [py1, px1]]`. -/
def convert_pattern_to_napari_line
    (pattern_settings : FibsemLineSettings) (shape : Nat × Nat)
    (pixelsize : ℚ) : List (ℚ × ℚ) :=
  let c := get_image_pixel_centre shape
  let icy : ℚ := c.1
  let icx : ℚ := c.2
  let px0 : ℚ := pyInt (icx + pattern_settings.start_x / pixelsize)
  let py0 : ℚ := pyInt (icy - pattern_settings.start_y / pixelsize)
  let px1 : ℚ := pyInt (icx + pattern_settings.end_x / pixelsize)
  let py1 : ℚ := pyInt (icy - pattern_settings.end_y / pixelsize)
  [(py0, px0), (py1, px1)]

/-- From `patterns.py`: the dict `NAPARI_DRAWING_FUNCTIONS`, keyed by the
settings type; `.get(type(pattern_settings), None)` is the `Option` result. -/
def NAPARI_DRAWING_FUNCTIONS (tcos tsin : ℚ → ℚ) :
    FibsemPatternSettings → Option (Nat × Nat → ℚ → List (ℚ × ℚ))
  | .rect s => some (convert_pattern_to_napari_rect tcos tsin s)
  | .circle s => some (convert_pattern_to_napari_circle s)
  | .line s => some (convert_pattern_to_napari_line s)
  | .unsupportedSettings => none

/-- napari shape-layer type strings from the dict `NAPARI_PATTERN_LAYER_TYPES`. -/
inductive NapariShapeType where
  | rectangle
  | ellipse
  | line
deriving DecidableEq, Repr

/-- From `patterns.py`: the dict `NAPARI_PATTERN_LAYER_TYPES`,
`.get(type(pattern_settings), None)`. -/
def NAPARI_PATTERN_LAYER_TYPES : FibsemPatternSettings → Option NapariShapeType
  | .rect _ => some .rectangle
  | .circle _ => some .ellipse
  | .line _ => some .line
  | .unsupportedSettings => none

/-- A `logging.warning` record emitted for an unsupported pattern type. -/
inductive PatternWarning where
  | unsupportedPatternType
deriving DecidableEq, Repr

/-- Result of the per-stage pattern loop of `draw_milling_patterns_in_napari`. -/
structure DrawLoopResult where
  napari_shapes : List (List (ℚ × ℚ))
  shape_types : List (Option NapariShapeType)
  warnings : List PatternWarning
deriving DecidableEq, Repr

/-- From `patterns.py`, `draw_milling_patterns_in_napari` lines 296-308: the loop
`for pattern_settings in stage.pattern.define()`.  When the settings type has no
drawing function the source logs a warning and `continue`s; otherwise it appends
the drawn shape and its layer type.  Total by construction: no exception escapes. -/
def drawPatternsLoop (tcos tsin : ℚ → ℚ) (image_shape : Nat × Nat)
    (pixelsize : ℚ) : List FibsemPatternSettings → DrawLoopResult
  | [] => ⟨[], [], []⟩
  | p :: ps =>
    let rest := drawPatternsLoop tcos tsin image_shape pixelsize ps
    match NAPARI_DRAWING_FUNCTIONS tcos tsin p with
    | none =>
        ⟨rest.napari_shapes, rest.shape_types,
         .unsupportedPatternType :: rest.warnings⟩
    | some f =>
        ⟨f image_shape pixelsize :: rest.napari_shapes,
         NAPARI_PATTERN_LAYER_TYPES p :: rest.shape_types,
         rest.warnings⟩

/-- From `patterns.py`: `validate_pattern_placement`.
`image_shape` is `(height, width)`; each coordinate is `(y, x)`.
The source loops with early `return False`; this recursion mirrors it. -/
def validate_pattern_placement (image_shape : Nat × Nat) :
    List (ℚ × ℚ) → Bool
  | [] => true
  | c :: rest =>
    let x_lim : ℚ := image_shape.2
    let y_lim : ℚ := image_shape.1
    if c.2 < 0 || c.2 > x_lim then false
    else if c.1 < 0 || c.1 > y_lim then false
    else validate_pattern_placement image_shape rest

/-- From `patterns.py`: `is_pattern_placement_valid`, non-fiducial branch
(the `FiducialPattern` early branch delegates to `calculate_fiducial_area_v2`,
which lives outside the two source files).  The argument is the list returned by
`pattern.define()`.  Also records the warnings the source logs; the Bool is the
return value. -/
def is_pattern_placement_valid (tcos tsin : ℚ → ℚ) (image_shape : Nat × Nat)
    (pixelsize : ℚ) : List FibsemPatternSettings → Bool × List PatternWarning
  | [] => (true, [])
  | p :: ps =>
    match NAPARI_DRAWING_FUNCTIONS tcos tsin p with
    | none => (false, [.unsupportedPatternType])
    | some f =>
        if validate_pattern_placement image_shape (f image_shape pixelsize) then
          is_pattern_placement_valid tcos tsin image_shape pixelsize ps
        else (false, [])

/-- From `structures.py` (constructor call in `patterns.py`): a `FibsemRectangle`
reduced area, fields `left`, `top`, `width`, `height` as fractions of the image. -/
structure FibsemRectangle where
  left : ℚ
  top : ℚ
  width : ℚ
  height : ℚ
deriving DecidableEq, Repr

/-- From `patterns.py`: `convert_reduced_area_to_napari_shape`.
`image_shape` is `(height, width)`; returns `[[y0, x0], [y0, x1], [y1, x1], [y1, x0]]`. -/
def convert_reduced_area_to_napari_shape (reduced_area : FibsemRectangle)
    (image_shape : Nat × Nat) : List (ℚ × ℚ) :=
  let x0 := reduced_area.left * (image_shape.2 : ℚ)
  let y0 := reduced_area.top * (image_shape.1 : ℚ)
  let x1 := x0 + reduced_area.width * (image_shape.2 : ℚ)
  let y1 := y0 + reduced_area.height * (image_shape.1 : ℚ)
  [(y0, x0), (y0, x1), (y1, x1), (y1, x0)]

/-- Python `min` over a nonempty list (raises on empty, hence `Option`). -/
def pyMin : List ℚ → Option ℚ
  | [] => none
  | x :: xs => some (xs.foldl min x)

/-- Python `max` over a nonempty list (raises on empty, hence `Option`). -/
def pyMax : List ℚ → Option ℚ
  | [] => none
  | x :: xs => some (xs.foldl max x)

/-- From `patterns.py`: `convert_shape_to_image_area`.
Takes min/max over all vertex coordinates, divides by the image dimensions, and
builds a `FibsemRectangle`.  `none` when the shape is empty (Python `min` raises). -/
def convert_shape_to_image_area (shape : List (ℚ × ℚ))
    (image_shape : Nat × Nat) : Option FibsemRectangle :=
  let x_coords := shape.map (fun c => c.2)
  let y_coords := shape.map (fun c => c.1)
  match pyMin x_coords, pyMax x_coords, pyMin y_coords, pyMax y_coords with
  | some x0, some x1, some y0, some y1 =>
    let x0 := x0 / (image_shape.2 : ℚ)
    let x1 := x1 / (image_shape.2 : ℚ)
    let y0 := y0 / (image_shape.1 : ℚ)
    let y1 := y1 / (image_shape.1 : ℚ)
    some { left := x0, top := y0, width := x1 - x0, height := y1 - y0 }
  | _, _, _, _ => none

/-! ## Workflow runners (`runners.py`)

The experiment, protocol, lamella record and the core/UI helper functions live
outside the two source files; they are modelled from the spec (see the doc
comments below).  Runner control flow is translated from `runners.py` itself.
Each runner yields its result together with a trace of the externally visible
actions it performed (stage updates, stage-function invocations, user prompts,
hardware calls), indexed by the position's index in `experiment.positions`. -/

/-- Modelled from the spec: the `AutoLamellaStage` enum (autolamella `structures`
module, outside the two source files).  Members are those the runners refer to;
the numbering (`value`) is consecutive in workflow order so that
`AutoLamellaStage(stage.value - 1)` in `run_lamella_milling` denotes the
preceding stage: `SetupLamella` just before `MillRough`, `MillRough` just
before `SetupPolishing`, `SetupPolishing` just before `MillPolishing`. -/
inductive AutoLamellaStage where
  | Created
  | PositionReady
  | MillTrench
  | MillUndercut
  | LiftoutLamella
  | LandLamella
  | SetupLamella
  | MillRough
  | SetupPolishing
  | MillPolishing
  | Finished
deriving DecidableEq, Repr

/-- The `.value` of each enum member (modelled numbering, see `AutoLamellaStage`). -/
def AutoLamellaStage.value : AutoLamellaStage → Nat
  | .Created => 0
  | .PositionReady => 1
  | .MillTrench => 2
  | .MillUndercut => 3
  | .LiftoutLamella => 4
  | .LandLamella => 5
  | .SetupLamella => 6
  | .MillRough => 7
  | .SetupPolishing => 8
  | .MillPolishing => 9
  | .Finished => 10

/-- Python `AutoLamellaStage(v)`: the member with value `v`, if any. -/
def AutoLamellaStage.ofValue? : Nat → Option AutoLamellaStage
  | 0 => some .Created
  | 1 => some .PositionReady
  | 2 => some .MillTrench
  | 3 => some .MillUndercut
  | 4 => some .LiftoutLamella
  | 5 => some .LandLamella
  | 6 => some .SetupLamella
  | 7 => some .MillRough
  | 8 => some .SetupPolishing
  | 9 => some .MillPolishing
  | 10 => some .Finished
  | _ => none

/-- Modelled from the spec: a specimen position record ("simple enum-tagged
records of specimen positions with a current workflow stage and failure flag").
Only the fields the runners read are modelled. -/
structure Lamella where
  workflow : AutoLamellaStage
  is_failure : Bool
deriving DecidableEq, Repr

/-- Modelled from the spec: the experiment record, holding the list of
specimen positions (persistence is owned by an external component). -/
structure Experiment where
  positions : List Lamella
deriving DecidableEq, Repr

/-- Modelled from the spec: `Experiment.at_stage` (autolamella `structures`
module, outside the two source files) — whether some position's current
workflow stage equals the given stage. -/
def Experiment.at_stage (experiment : Experiment) (stage : AutoLamellaStage) : Bool :=
  experiment.positions.any (fun l => l.workflow == stage)

/-- Modelled from the spec: the protocol, of which the runners read only the
per-stage supervision configuration flags. -/
structure AutoLamellaProtocol where
  supervision : AutoLamellaStage → Bool

/-- The stage functions of `workflows.core` that the runners invoke. -/
inductive StageFnName where
  | millTrench
  | millUndercut
  | setupLamella
  | millLamella
  | setupPolishing
deriving DecidableEq, Repr

/-- Messages of the user prompts issued by the runners. -/
inductive PromptMsg where
  | continueToMillUndercut
  | continueToSetupLamella
  | startAutolamellaMilling
  | spotBurnContinue
deriving DecidableEq, Repr

/-- Reference-image filenames used by `run_spot_burn_workflow`. -/
inductive ImageFilename where
  | refSpotBurnStart
  | refSpotBurnEnd
deriving DecidableEq, Repr

/-- Externally visible actions of a runner.  `idx` is the index of the affected
position in `experiment.positions`. -/
inductive WorkflowEvent where
  | startOfStage (idx : Nat) (stage : AutoLamellaStage)
  | stageFunction (fn : StageFnName) (idx : Nat)
  | endOfStage (idx : Nat)
  | logNullEnd (idx : Nat)
  | askUser (msg : PromptMsg)
  | moveStage (idx : Nat)
  | acquireImages (idx : Nat) (filename : ImageFilename)
deriving DecidableEq, Repr

/-- The position index an event refers to (`none` for user prompts). -/
def WorkflowEvent.indexOf? : WorkflowEvent → Option Nat
  | .startOfStage idx _ => some idx
  | .stageFunction _ idx => some idx
  | .endOfStage idx => some idx
  | .logNullEnd idx => some idx
  | .askUser _ => none
  | .moveStage idx => some idx
  | .acquireImages idx _ => some idx

/-- Whether an event is a stage update or stage-function invocation for the
position at index `i` (the actions whose absence makes a position "skipped"). -/
def WorkflowEvent.isStageEventFor (i : Nat) : WorkflowEvent → Bool
  | .startOfStage idx _ => idx == i
  | .stageFunction _ idx => idx == i
  | .endOfStage idx => idx == i
  | _ => false

/-- The stage updates recorded for position `i`: the stages position `i`
"enters", in trace order. -/
def enteredStages (i : Nat) (tr : List WorkflowEvent) : List AutoLamellaStage :=
  tr.filterMap fun ev =>
    match ev with
    | .startOfStage idx s => if idx == i then some s else none
    | _ => none

/-- An error escaping a runner. -/
inductive RunnerError where
  | unboundLocalError
deriving DecidableEq, Repr

/-- Modelled from the spec: `start_of_stage_update` (`workflows.core`, outside
the two source files) moves the lamella record into the given workflow stage;
microscope-state restoring and saving are owned by external components. -/
def start_of_stage_update (idx : Nat) (lamella : Lamella)
    (stage : AutoLamellaStage) : Lamella × List WorkflowEvent :=
  ({ lamella with workflow := stage }, [.startOfStage idx stage])

/-- Modelled from the spec: the stage functions (`mill_trench`, `mill_undercut`,
`setup_lamella`, `mill_lamella`, `setup_polishing` of `workflows.core`, outside
the two source files) are black-box hardware/UI procedures; the invocation is
recorded and the modelled record fields (workflow stage, failure flag) are
unchanged by it. -/
def invokeStageFunction (fn : StageFnName) (idx : Nat) (lamella : Lamella) :
    Lamella × List WorkflowEvent :=
  (lamella, [.stageFunction fn idx])

/-- The per-position loop of a runner: `for lamella in experiment.positions`,
where iteration `idx` rewrites position `idx` (via `end_of_stage_update`, which
stores the updated record back into the experiment) and appends its events. -/
def mapWithEvents (f : Nat → Lamella → Lamella × List WorkflowEvent) :
    Nat → List Lamella → List Lamella × List WorkflowEvent
  | _, [] => ([], [])
  | k, l :: ls =>
    let r := f k l
    let rest := mapWithEvents f (k + 1) ls
    (r.1 :: rest.1, r.2 ++ rest.2)

/-- One iteration of the `run_trench_milling` loop. -/
def trenchStep (idx : Nat) (lamella : Lamella) : Lamella × List WorkflowEvent :=
  if lamella.workflow == .PositionReady && !lamella.is_failure then
    let s := start_of_stage_update idx lamella .MillTrench
    let m := invokeStageFunction .millTrench idx s.1
    (m.1, s.2 ++ m.2 ++ [.endOfStage idx])
  else (lamella, [])

/-- From `runners.py`: `run_trench_milling`.  The trailing
`log_status_message(lamella, "NULL_END")` reads the loop variable after the
loop; when `experiment.positions` is empty it was never bound and Python raises
`UnboundLocalError`. -/
def run_trench_milling (experiment : Experiment) :
    Except RunnerError (Experiment × List WorkflowEvent) :=
  let r := mapWithEvents trenchStep 0 experiment.positions
  match experiment.positions.length with
  | 0 => .error .unboundLocalError
  | n + 1 => .ok (⟨r.1⟩, r.2 ++ [.logNullEnd n])

/-- One iteration of the `run_undercut_milling` loop; its
`log_status_message(lamella, "NULL_END")` sits inside the loop body. -/
def undercutStep (idx : Nat) (lamella : Lamella) : Lamella × List WorkflowEvent :=
  if lamella.workflow == .MillTrench && !lamella.is_failure then
    let s := start_of_stage_update idx lamella .MillUndercut
    let m := invokeStageFunction .millUndercut idx s.1
    (m.1, s.2 ++ m.2 ++ [.endOfStage idx, .logNullEnd idx])
  else (lamella, [.logNullEnd idx])

/-- From `runners.py`: `run_undercut_milling` (total: its NULL_END log is inside
the loop, so an empty experiment is returned unchanged). -/
def run_undercut_milling (experiment : Experiment) :
    Experiment × List WorkflowEvent :=
  let r := mapWithEvents undercutStep 0 experiment.positions
  (⟨r.1⟩, r.2)

/-- One iteration of the `run_setup_lamella` loop. -/
def setupLamellaStep (idx : Nat) (lamella : Lamella) : Lamella × List WorkflowEvent :=
  if (lamella.workflow == .PositionReady || lamella.workflow == .MillUndercut ||
      lamella.workflow == .LandLamella) && !lamella.is_failure then
    let s := start_of_stage_update idx lamella .SetupLamella
    let m := invokeStageFunction .setupLamella idx s.1
    (m.1, s.2 ++ m.2 ++ [.endOfStage idx])
  else (lamella, [])

/-- From `runners.py`: `run_setup_lamella`; like `run_trench_milling` it reads
the loop variable after the loop, raising `UnboundLocalError` for an empty
experiment. -/
def run_setup_lamella (experiment : Experiment) :
    Except RunnerError (Experiment × List WorkflowEvent) :=
  let r := mapWithEvents setupLamellaStep 0 experiment.positions
  match experiment.positions.length with
  | 0 => .error .unboundLocalError
  | n + 1 => .ok (⟨r.1⟩, r.2 ++ [.logNullEnd n])

/-- From `runners.py`: the dict `WORKFLOW_STAGES` mapping a workflow stage to
its stage function. -/
def WORKFLOW_STAGES : AutoLamellaStage → Option StageFnName
  | .MillTrench => some .millTrench
  | .MillUndercut => some .millUndercut
  | .SetupLamella => some .setupLamella
  | .MillRough => some .millLamella
  | .SetupPolishing => some .setupPolishing
  | .MillPolishing => some .millLamella
  | _ => none

/-- From `runners.py`: `LAMELLA_MILLING_WORKFLOW`. -/
def LAMELLA_MILLING_WORKFLOW : List AutoLamellaStage :=
  [.MillRough, .SetupPolishing, .MillPolishing]

/-- One iteration of the inner loop of `run_lamella_milling` for a given
`stage`.  `is_previous_completed` is the Python local of the same name; the
final `false` branch is unreachable because the outer loop only visits the
three stages of `LAMELLA_MILLING_WORKFLOW`.  The `WORKFLOW_STAGES` lookup uses
`lamella.workflow` after `start_of_stage_update`, exactly as the source does;
a missing key would be a Python `KeyError`, likewise unreachable here. -/
def millingStep (stage : AutoLamellaStage) (idx : Nat) (lamella : Lamella) :
    Lamella × List WorkflowEvent :=
  let is_previous_completed : Bool :=
    if stage == .MillRough || stage == .SetupPolishing then
      some lamella.workflow == AutoLamellaStage.ofValue? (stage.value - 1)
    else if stage == .MillPolishing then
      lamella.workflow == .MillRough || lamella.workflow == .SetupPolishing
    else false
  if is_previous_completed && !lamella.is_failure then
    let s := start_of_stage_update idx lamella stage
    match WORKFLOW_STAGES s.1.workflow with
    | some fn =>
      let m := invokeStageFunction fn idx s.1
      (m.1, s.2 ++ m.2 ++ [.endOfStage idx])
    | none => (s.1, s.2)
  else (lamella, [])

/-- The body of the outer `for stage in LAMELLA_MILLING_WORKFLOW` loop of
`run_lamella_milling`: stages not in `stages_to_complete` are skipped (with an
info log only). -/
def runStagePass (stages_to_complete : List AutoLamellaStage)
    (acc : Experiment × List WorkflowEvent) (stage : AutoLamellaStage) :
    Experiment × List WorkflowEvent :=
  if stage ∈ stages_to_complete then
    let r := mapWithEvents (millingStep stage) 0 acc.1.positions
    (⟨r.1⟩, acc.2 ++ r.2)
  else acc

/-- One iteration of the finishing loop of `run_lamella_milling`
(`restore_state=False`, `save_state=False` concern only the external
persistence component). -/
def finishStep (idx : Nat) (lamella : Lamella) : Lamella × List WorkflowEvent :=
  if lamella.workflow == .MillPolishing && !lamella.is_failure then
    let s := start_of_stage_update idx lamella .Finished
    (s.1, s.2 ++ [.endOfStage idx])
  else (lamella, [])

/-- From `runners.py`: `run_lamella_milling` — the three stage passes, the
finishing loop, then `log_status_message` on the finishing loop's variable
(raising `UnboundLocalError` when `experiment.positions` is empty). -/
def run_lamella_milling (stages_to_complete : List AutoLamellaStage)
    (experiment : Experiment) :
    Except RunnerError (Experiment × List WorkflowEvent) :=
  let r1 := LAMELLA_MILLING_WORKFLOW.foldl (runStagePass stages_to_complete)
    (experiment, [])
  let r2 := mapWithEvents finishStep 0 r1.1.positions
  match experiment.positions.length with
  | 0 => .error .unboundLocalError
  | n + 1 => .ok (⟨r2.1⟩, r1.2 ++ r2.2 ++ [.logNullEnd n])

/-- Modelled from the spec: `ask_user` (`workflows.ui`, outside the two source
files) blocks for explicit user confirmation and returns the user's boolean
answer; `user k` is the answer to the k-th prompt of the run. -/
def ask_user (user : Nat → Bool) (k : Nat) (msg : PromptMsg) :
    Bool × List WorkflowEvent × Nat :=
  (user k, [.askUser msg], k + 1)

/-- Modelled from the spec: `ask_user_continue_workflow` (`workflows.ui`,
outside the two source files) prompts only when `validate` — the supervision
flag the runners pass — is set, and otherwise continues immediately. -/
def ask_user_continue_workflow (user : Nat → Bool) (k : Nat) (msg : PromptMsg)
    (validate : Bool) : Bool × List WorkflowEvent × Nat :=
  if validate then ask_user user k msg else (true, [], k)

/-- From `runners.py`: `run_autolamella` — optional setup phase, the
`supervision[SetupLamella]`-gated "Start AutoLamella Milling?" prompt (issued
after `run_setup_lamella` has run), then `run_lamella_milling`. -/
def run_autolamella (protocol : AutoLamellaProtocol)
    (stages_to_complete : List AutoLamellaStage) (experiment : Experiment)
    (user : Nat → Bool) (k : Nat) :
    Except RunnerError (Experiment × List WorkflowEvent × Nat) :=
  if AutoLamellaStage.SetupLamella ∈ stages_to_complete then
    match run_setup_lamella experiment with
    | .error err => .error err
    | .ok (e1, tr1) =>
      if protocol.supervision .SetupLamella then
        let a := ask_user user k .startAutolamellaMilling
        if a.1 = false then .ok (e1, tr1 ++ a.2.1, a.2.2)
        else
          match run_lamella_milling stages_to_complete e1 with
          | .error err => .error err
          | .ok (e2, tr2) => .ok (e2, tr1 ++ a.2.1 ++ tr2, a.2.2)
      else
        match run_lamella_milling stages_to_complete e1 with
        | .error err => .error err
        | .ok (e2, tr2) => .ok (e2, tr1 ++ tr2, k)
  else
    match run_lamella_milling stages_to_complete experiment with
    | .error err => .error err
    | .ok (e2, tr2) => .ok (e2, tr2, k)

/-- The `SetupLamella` confirmation gate of `run_autolamella_waffle`, followed
by the call into `run_autolamella`. -/
def waffleSetupGate (protocol : AutoLamellaProtocol)
    (stages_to_complete : List AutoLamellaStage) (experiment : Experiment)
    (tr : List WorkflowEvent) (user : Nat → Bool) (k : Nat) :
    Except RunnerError (Experiment × List WorkflowEvent × Nat) :=
  if AutoLamellaStage.SetupLamella ∈ stages_to_complete ∧
      experiment.at_stage .MillUndercut = true then
    let a := ask_user_continue_workflow user k .continueToSetupLamella
      (protocol.supervision .SetupLamella)
    if a.1 = false then .ok (experiment, tr ++ a.2.1, a.2.2)
    else
      match run_autolamella protocol stages_to_complete experiment user a.2.2 with
      | .error err => .error err
      | .ok (e2, tr2, k2) => .ok (e2, tr ++ a.2.1 ++ tr2, k2)
  else
    match run_autolamella protocol stages_to_complete experiment user k with
    | .error err => .error err
    | .ok (e2, tr2, k2) => .ok (e2, tr ++ tr2, k2)

/-- From `runners.py`: `run_autolamella_waffle` — trench phase (when requested
and some position is at `PositionReady`), the `MillUndercut` confirmation gate,
undercut phase, the `SetupLamella` confirmation gate, then `run_autolamella`. -/
def run_autolamella_waffle (protocol : AutoLamellaProtocol)
    (stages_to_complete : List AutoLamellaStage) (experiment : Experiment)
    (user : Nat → Bool) (k : Nat) :
    Except RunnerError (Experiment × List WorkflowEvent × Nat) :=
  let t : Except RunnerError (Experiment × List WorkflowEvent) :=
    if AutoLamellaStage.MillTrench ∈ stages_to_complete ∧
        experiment.at_stage .PositionReady = true then
      run_trench_milling experiment
    else .ok (experiment, [])
  match t with
  | .error err => .error err
  | .ok (e1, tr1) =>
    if AutoLamellaStage.MillUndercut ∈ stages_to_complete ∧
        e1.at_stage .MillTrench = true then
      let a := ask_user_continue_workflow user k .continueToMillUndercut
        (protocol.supervision .MillUndercut)
      if a.1 = false then .ok (e1, tr1 ++ a.2.1, a.2.2)
      else
        let u := run_undercut_milling e1
        waffleSetupGate protocol stages_to_complete u.1 (tr1 ++ a.2.1 ++ u.2)
          user a.2.2
    else waffleSetupGate protocol stages_to_complete e1 tr1 user k

/-- The loop of `run_spot_burn_workflow`: every position is visited (the
failure flag is never consulted); `break` when the user answers Exit.  One
prompt is issued per visited position, so position `idx` receives prompt
number `idx`. -/
def spotBurnLoop (user : Nat → Bool) : Nat → List Lamella → List WorkflowEvent
  | _, [] => []
  | idx, _ :: rest =>
    [.moveStage idx, .acquireImages idx .refSpotBurnStart,
     .askUser .spotBurnContinue] ++
    (if user idx then
      .acquireImages idx .refSpotBurnEnd :: spotBurnLoop user (idx + 1) rest
    else [])

/-- From `runners.py`: `run_spot_burn_workflow` (returns `None`; the experiment
record is not modified, so the trace is the whole observable result). -/
def run_spot_burn_workflow (experiment : Experiment) (user : Nat → Bool) :
    List WorkflowEvent :=
  spotBurnLoop user 0 experiment.positions

/-- Modelled from the spec: `AutoLamellaMethod.WAFFLE.workflow` (autolamella
`structures` module, outside the two source files). -/
def waffleWorkflow : List AutoLamellaStage :=
  [.MillTrench, .MillUndercut, .SetupLamella, .MillRough, .SetupPolishing,
   .MillPolishing]

/-- Modelled from the spec: `AutoLamellaMethod.ON_GRID.workflow` (autolamella
`structures` module, outside the two source files). -/
def onGridWorkflow : List AutoLamellaStage :=
  [.SetupLamella, .MillRough, .SetupPolishing, .MillPolishing]
/-! ## Pattern geometry claims -/

/-- Rotation of a vector `(x, y)` by angle `a`, with `tcos`/`tsin` for cos/sin. -/
def rotate2 (tcos tsin : ℚ → ℚ) (a : ℚ) (v : ℚ × ℚ) : ℚ × ℚ :=
  (v.1 * tcos a - v.2 * tsin a, v.1 * tsin a + v.2 * tcos a)

/-- C6, stated from the spec sentence: the four corners of a `w`-by-`h`
rectangle (`w`, `h` the pattern width/height scaled by `1/pixelsize` and
truncated to int), centred at the truncated pixel centre
`(icx + centre_x/pixelsize, icy - centre_y/pixelsize)`, each corner rotated
about that centre by the negation of the pattern's rotation, returned as
`[y, x]` pairs. -/
def napariRectOfClaim (tcos tsin : ℚ → ℚ) (ps : FibsemRectangleSettings)
    (shape : Nat × Nat) (pixelsize : ℚ) : List (ℚ × ℚ) :=
  let c := get_image_pixel_centre shape
  let w : ℤ := pyInt (ps.width / pixelsize)
  let h : ℤ := pyInt (ps.height / pixelsize)
  let cx : ℤ := pyInt ((c.2 : ℚ) + ps.centre_x / pixelsize)
  let cy : ℤ := pyInt ((c.1 : ℚ) - ps.centre_y / pixelsize)
  let corners : List (ℚ × ℚ) :=
    [(-(w : ℚ) / 2, -(h : ℚ) / 2), ((w : ℚ) / 2, -(h : ℚ) / 2),
     ((w : ℚ) / 2, (h : ℚ) / 2), (-(w : ℚ) / 2, (h : ℚ) / 2)]
  corners.map fun v =>
    let rv := rotate2 tcos tsin (-ps.rotation) v
    ((cy : ℚ) + rv.2, (cx : ℚ) + rv.1)

/-- C6: `convert_pattern_to_napari_rect` computes exactly the rectangle
described by the claim: width/height scaled by `1/pixelsize` and truncated to
int, centre at `(icx + centre_x/pixelsize, icy - centre_y/pixelsize)` truncated
to int, corners rotated about the centre by the negation of the rotation, and
the result the four `[y, x]` corner pairs. -/
theorem C6_convert_pattern_to_napari_rect_correct (tcos tsin : ℚ → ℚ)
    (ps : FibsemRectangleSettings) (shape : Nat × Nat) (pixelsize : ℚ) :
    convert_pattern_to_napari_rect tcos tsin ps shape pixelsize =
      napariRectOfClaim tcos tsin ps shape pixelsize := rfl

/-- C8: `validate_pattern_placement` accepts a shape iff every vertex `(y, x)`
has `0 ≤ x ≤ width` and `0 ≤ y ≤ height` — both bounds inclusive — and in
particular the single vertex exactly at `(height, width)` is accepted. -/
theorem C8_validate_pattern_placement_iff (image_shape : Nat × Nat)
    (shape : List (ℚ × ℚ)) :
    (validate_pattern_placement image_shape shape = true ↔
      ∀ c ∈ shape, 0 ≤ c.2 ∧ c.2 ≤ (image_shape.2 : ℚ) ∧
        0 ≤ c.1 ∧ c.1 ≤ (image_shape.1 : ℚ)) ∧
    validate_pattern_placement image_shape
      [((image_shape.1 : ℚ), (image_shape.2 : ℚ))] = true := by
  constructor
  · induction shape with
    | nil => simp [validate_pattern_placement]
    | cons c rest ih =>
      simp only [validate_pattern_placement, List.mem_cons]
      constructor
      · intro h
        split_ifs at h with h1 h2
        intro d hd
        rcases hd with hd | hd
        · subst hd
          simp only [Bool.or_eq_true, decide_eq_true_eq, not_or, not_lt] at h1 h2
          exact ⟨h1.1, h1.2, h2.1, h2.2⟩
        · exact ih.mp h d hd
      · intro h
        have hc := h c (Or.inl rfl)
        have h1 : (c.2 < 0 || c.2 > (image_shape.2 : ℚ)) = false := by
          simp only [Bool.or_eq_false_iff, decide_eq_false_iff_not, not_lt]
          exact ⟨hc.1, hc.2.1⟩
        have h2 : (c.1 < 0 || c.1 > (image_shape.1 : ℚ)) = false := by
          simp only [Bool.or_eq_false_iff, decide_eq_false_iff_not, not_lt]
          exact ⟨hc.2.2.1, hc.2.2.2⟩
        simp only [h1, h2, Bool.false_eq_true, if_false]
        exact ih.mpr fun d hd => h d (Or.inr hd)
  · simp [validate_pattern_placement]

/-- C7: converting a `FibsemRectangle` with nonnegative width and height to a
napari shape and back is the identity, for an image with positive dimensions
(exact rational arithmetic). -/
theorem C7_reduced_area_roundtrip (r : FibsemRectangle) (H W : Nat)
    (hw : 0 ≤ r.width) (hh : 0 ≤ r.height) (hH : 0 < H) (hW : 0 < W) :
    convert_shape_to_image_area
      (convert_reduced_area_to_napari_shape r (H, W)) (H, W) = some r := by
  obtain ⟨l, t, w, h⟩ := r
  have hW0 : (W : ℚ) ≠ 0 := Nat.cast_ne_zero.mpr hW.ne'
  have hH0 : (H : ℚ) ≠ 0 := Nat.cast_ne_zero.mpr hH.ne'
  have hWq : (0 : ℚ) ≤ (W : ℚ) := by positivity
  have hHq : (0 : ℚ) ≤ (H : ℚ) := by positivity
  have hx01 : l * (W : ℚ) ≤ l * (W : ℚ) + w * (W : ℚ) :=
    le_add_of_nonneg_right (mul_nonneg hw hWq)
  have hy01 : t * (H : ℚ) ≤ t * (H : ℚ) + h * (H : ℚ) :=
    le_add_of_nonneg_right (mul_nonneg hh hHq)
  simp only [convert_reduced_area_to_napari_shape, convert_shape_to_image_area,
    pyMin, pyMax, List.map, List.foldl]
  simp only [min_eq_left hx01, min_eq_left hy01, max_eq_right hx01,
    max_eq_left hx01, max_eq_right hy01, max_eq_left hy01, min_self, max_self]
  simp only [Option.some.injEq, FibsemRectangle.mk.injEq]
  refine ⟨?_, ?_, ?_, ?_⟩ <;> field_simp <;> try ring

/-- Witness for C7 at a concrete rectangle and image shape. -/
theorem C7_reduced_area_roundtrip_witness :
    0 ≤ ((1 : ℚ) / 2) ∧ 0 ≤ ((1 : ℚ) / 3) ∧ 0 < 6 ∧ 0 < 8 ∧
    convert_shape_to_image_area
      (convert_reduced_area_to_napari_shape
        (FibsemRectangle.mk (1 / 4) (1 / 8) (1 / 2) (1 / 3)) (6, 8)) (6, 8) =
      some (FibsemRectangle.mk (1 / 4) (1 / 8) (1 / 2) (1 / 3)) :=
  ⟨by norm_num, by norm_num, by norm_num, by norm_num,
    C7_reduced_area_roundtrip (FibsemRectangle.mk (1 / 4) (1 / 8) (1 / 2) (1 / 3))
      6 8 (by norm_num) (by norm_num) (by norm_num) (by norm_num)⟩

/-- The pattern loop of `draw_milling_patterns_in_napari` is a homomorphism on
the settings list: shapes, layer types and warnings of a concatenation are the
concatenations. -/
theorem drawPatternsLoop_append (tcos tsin : ℚ → ℚ) (image_shape : Nat × Nat)
    (pixelsize : ℚ) (xs ys : List FibsemPatternSettings) :
    drawPatternsLoop tcos tsin image_shape pixelsize (xs ++ ys) =
      ⟨(drawPatternsLoop tcos tsin image_shape pixelsize xs).napari_shapes ++
          (drawPatternsLoop tcos tsin image_shape pixelsize ys).napari_shapes,
        (drawPatternsLoop tcos tsin image_shape pixelsize xs).shape_types ++
          (drawPatternsLoop tcos tsin image_shape pixelsize ys).shape_types,
        (drawPatternsLoop tcos tsin image_shape pixelsize xs).warnings ++
          (drawPatternsLoop tcos tsin image_shape pixelsize ys).warnings⟩ := by
  induction xs with
  | nil => simp [drawPatternsLoop]
  | cons p ps ih =>
    cases h : NAPARI_DRAWING_FUNCTIONS tcos tsin p <;>
      simp [drawPatternsLoop, h, ih]

/-- C5: a pattern-settings object whose type has no drawing function in
`NAPARI_DRAWING_FUNCTIONS` is skipped by the drawing loop of
`draw_milling_patterns_in_napari` with exactly one extra warning logged, the
remaining patterns drawn as without it (and the loop is total, so no exception
is raised); under the same condition `is_pattern_placement_valid` returns
`False`, and when the unsupported settings object is the one reached it logs
the warning. -/
theorem C5_unsupported_pattern_type (tcos tsin : ℚ → ℚ)
    (image_shape : Nat × Nat) (pixelsize : ℚ)
    (xs ys ps : List FibsemPatternSettings) :
    ((drawPatternsLoop tcos tsin image_shape pixelsize
        (xs ++ .unsupportedSettings :: ys)).napari_shapes =
      (drawPatternsLoop tcos tsin image_shape pixelsize
        (xs ++ ys)).napari_shapes ∧
     (drawPatternsLoop tcos tsin image_shape pixelsize
        (xs ++ .unsupportedSettings :: ys)).shape_types =
      (drawPatternsLoop tcos tsin image_shape pixelsize
        (xs ++ ys)).shape_types ∧
     (drawPatternsLoop tcos tsin image_shape pixelsize
        (xs ++ .unsupportedSettings :: ys)).warnings =
      (drawPatternsLoop tcos tsin image_shape pixelsize xs).warnings ++
        .unsupportedPatternType ::
          (drawPatternsLoop tcos tsin image_shape pixelsize ys).warnings) ∧
    (FibsemPatternSettings.unsupportedSettings ∈ ps →
      (is_pattern_placement_valid tcos tsin image_shape pixelsize ps).1 = false) ∧
    is_pattern_placement_valid tcos tsin image_shape pixelsize
        (.unsupportedSettings :: ys) =
      (false, [.unsupportedPatternType]) := by
  refine ⟨?_, ?_, rfl⟩
  · rw [drawPatternsLoop_append, drawPatternsLoop_append]
    simp [drawPatternsLoop, NAPARI_DRAWING_FUNCTIONS]
  · intro hmem
    induction ps with
    | nil => simp at hmem
    | cons p rest ih =>
      rcases List.mem_cons.mp hmem with hp | hp
      · subst hp
        rfl
      · simp only [is_pattern_placement_valid]
        cases hfn : NAPARI_DRAWING_FUNCTIONS tcos tsin p with
        | none => rfl
        | some f =>
          simp only
          split
          · exact ih hp
          · rfl

/-- Witness for C5 at a concrete pattern list containing an unsupported
settings object after a rectangle pattern. -/
theorem C5_unsupported_pattern_type_witness :
    FibsemPatternSettings.unsupportedSettings ∈
      ([.rect (FibsemRectangleSettings.mk 1 1 0 0 0), .unsupportedSettings] :
        List FibsemPatternSettings) ∧
    (is_pattern_placement_valid (fun _ => 1) (fun _ => 0) (10, 10) 1
        [.rect (FibsemRectangleSettings.mk 1 1 0 0 0), .unsupportedSettings]).1 =
      false :=
  ⟨by decide,
    (C5_unsupported_pattern_type (fun _ => 1) (fun _ => 0) (10, 10) 1 [] []
      [.rect (FibsemRectangleSettings.mk 1 1 0 0 0), .unsupportedSettings]).2.1
      (by decide)⟩

/-! ## Workflow trace machinery -/

/-- The stage updates / stage-function invocations of a trace for position `i`. -/
def stageEventsFor (i : Nat) (tr : List WorkflowEvent) : List WorkflowEvent :=
  tr.filter (WorkflowEvent.isStageEventFor i)

theorem stageEventsFor_append (i : Nat) (a b : List WorkflowEvent) :
    stageEventsFor i (a ++ b) = stageEventsFor i a ++ stageEventsFor i b :=
  List.filter_append a b

theorem enteredStages_append (i : Nat) (a b : List WorkflowEvent) :
    enteredStages i (a ++ b) = enteredStages i a ++ enteredStages i b :=
  List.filterMap_append a b _

/-- An event carrying some other position's index is not a stage event for `i`. -/
theorem isStageEventFor_false_of_indexOf (i : Nat) (ev : WorkflowEvent) (j : Nat)
    (hj : ev.indexOf? = some j) (hne : j ≠ i) :
    ev.isStageEventFor i = false := by
  cases ev <;>
    simp_all [WorkflowEvent.indexOf?, WorkflowEvent.isStageEventFor]

theorem stageEventsFor_eq_nil (i : Nat) (evs : List WorkflowEvent)
    (h : ∀ ev ∈ evs, ∃ j, ev.indexOf? = some j ∧ j ≠ i) :
    stageEventsFor i evs = [] := by
  refine List.filter_eq_nil_iff.mpr fun ev hev => ?_
  obtain ⟨j, hj, hne⟩ := h ev hev
  simp [isStageEventFor_false_of_indexOf i ev j hj hne]

theorem enteredStages_eq_nil (i : Nat) (evs : List WorkflowEvent)
    (h : ∀ ev ∈ evs, ∃ j, ev.indexOf? = some j ∧ j ≠ i) :
    enteredStages i evs = [] := by
  induction evs with
  | nil => rfl
  | cons ev rest ih =>
    obtain ⟨j, hj, hne⟩ := h ev (List.mem_cons_self ev rest)
    have hrest := ih fun e he => h e (List.mem_cons_of_mem ev he)
    cases ev <;>
      simp_all [enteredStages, WorkflowEvent.indexOf?]

theorem mapWithEvents_length (f : Nat → Lamella → Lamella × List WorkflowEvent)
    (k : Nat) (ps : List Lamella) :
    (mapWithEvents f k ps).1.length = ps.length := by
  induction ps generalizing k with
  | nil => rfl
  | cons l ls ih => simp [mapWithEvents, ih]

/-- Position `i` of the loop's resulting position list is the step applied to
position `i` of the input. -/
theorem mapWithEvents_getElem? (f : Nat → Lamella → Lamella × List WorkflowEvent)
    (k : Nat) (ps : List Lamella) (i : Nat) :
    (mapWithEvents f k ps).1[i]? = ps[i]?.map fun l => (f (k + i) l).1 := by
  induction ps generalizing k i with
  | nil => simp [mapWithEvents]
  | cons l ls ih =>
    cases i with
    | zero => simp [mapWithEvents]
    | succ j =>
      simp only [mapWithEvents, List.getElem?_cons_succ]
      rw [show k + (j + 1) = k + 1 + j from by omega]
      exact ih (k + 1) j

/-- Every event emitted by the loop from start index `k` carries an index `≥ k`. -/
theorem mapWithEvents_indexOf_ge (f : Nat → Lamella → Lamella × List WorkflowEvent)
    (hf : ∀ j l ev, ev ∈ (f j l).2 → ev.indexOf? = some j)
    (k : Nat) (ps : List Lamella) :
    ∀ ev ∈ (mapWithEvents f k ps).2, ∃ j, k ≤ j ∧ ev.indexOf? = some j := by
  induction ps generalizing k with
  | nil => simp [mapWithEvents]
  | cons l ls ih =>
    intro ev hev
    simp only [mapWithEvents, List.mem_append] at hev
    rcases hev with hev | hev
    · exact ⟨k, le_refl k, hf k l ev hev⟩
    · obtain ⟨j, hj, hje⟩ := ih (k + 1) ev hev
      exact ⟨j, by omega, hje⟩

/-- The stage events of the loop's trace for position `k + i` are exactly the
stage events of iteration `i`: steps only emit events carrying their own index. -/
theorem mapWithEvents_stageEventsFor
    (f : Nat → Lamella → Lamella × List WorkflowEvent)
    (hf : ∀ j l ev, ev ∈ (f j l).2 → ev.indexOf? = some j)
    (k : Nat) (ps : List Lamella) (i : Nat) (l : Lamella)
    (hl : ps[i]? = some l) :
    stageEventsFor (k + i) (mapWithEvents f k ps).2 =
      stageEventsFor (k + i) (f (k + i) l).2 := by
  induction ps generalizing k i with
  | nil => simp at hl
  | cons p ls ih =>
    cases i with
    | zero =>
      simp only [List.getElem?_cons_zero, Option.some.injEq] at hl
      subst hl
      simp only [mapWithEvents, Nat.add_zero, stageEventsFor_append]
      have h2 : stageEventsFor k (mapWithEvents f (k + 1) ls).2 = [] := by
        refine stageEventsFor_eq_nil k _ fun ev hev => ?_
        obtain ⟨j, hj, hje⟩ := mapWithEvents_indexOf_ge f hf (k + 1) ls ev hev
        exact ⟨j, hje, by omega⟩
      rw [h2, List.append_nil]
    | succ j =>
      simp only [List.getElem?_cons_succ] at hl
      simp only [mapWithEvents, stageEventsFor_append]
      have h1 : stageEventsFor (k + (j + 1)) (f k p).2 = [] := by
        refine stageEventsFor_eq_nil _ _ fun ev hev => ?_
        exact ⟨k, hf k p ev hev, by omega⟩
      have h2 := ih (k + 1) j hl
      rw [h1, List.nil_append, show k + (j + 1) = k + 1 + j by omega, h2]

/-- The stages position `k + i` enters during the loop are exactly those of
iteration `i`. -/
theorem mapWithEvents_enteredStages
    (f : Nat → Lamella → Lamella × List WorkflowEvent)
    (hf : ∀ j l ev, ev ∈ (f j l).2 → ev.indexOf? = some j)
    (k : Nat) (ps : List Lamella) (i : Nat) (l : Lamella)
    (hl : ps[i]? = some l) :
    enteredStages (k + i) (mapWithEvents f k ps).2 =
      enteredStages (k + i) (f (k + i) l).2 := by
  induction ps generalizing k i with
  | nil => simp at hl
  | cons p ls ih =>
    cases i with
    | zero =>
      simp only [List.getElem?_cons_zero, Option.some.injEq] at hl
      subst hl
      simp only [mapWithEvents, Nat.add_zero, enteredStages_append]
      have h2 : enteredStages k (mapWithEvents f (k + 1) ls).2 = [] := by
        refine enteredStages_eq_nil k _ fun ev hev => ?_
        obtain ⟨j, hj, hje⟩ := mapWithEvents_indexOf_ge f hf (k + 1) ls ev hev
        exact ⟨j, hje, by omega⟩
      rw [h2, List.append_nil]
    | succ j =>
      simp only [List.getElem?_cons_succ] at hl
      simp only [mapWithEvents, enteredStages_append]
      have h1 : enteredStages (k + (j + 1)) (f k p).2 = [] := by
        refine enteredStages_eq_nil _ _ fun ev hev => ?_
        exact ⟨k, hf k p ev hev, by omega⟩
      have h2 := ih (k + 1) j hl
      rw [h1, List.nil_append, show k + (j + 1) = k + 1 + j by omega, h2]

/-! ## Step-level lemmas for the runners -/

/-- C2's entry relation: the condition under which `run_lamella_milling` lets a
position enter a stage.  `MillRough` and `SetupPolishing` are entered only from
the stage whose enum value is one less; `MillPolishing` only from `MillRough`
or `SetupPolishing`; `Finished` only from `MillPolishing`. -/
def allowedEntry (prev stage : AutoLamellaStage) : Prop :=
  match stage with
  | .MillRough =>
      AutoLamellaStage.ofValue? (AutoLamellaStage.value .MillRough - 1) = some prev
  | .SetupPolishing =>
      AutoLamellaStage.ofValue? (AutoLamellaStage.value .SetupPolishing - 1) = some prev
  | .MillPolishing => prev = .MillRough ∨ prev = .SetupPolishing
  | .Finished => prev = .MillPolishing
  | _ => False

/-- Each iteration of a milling pass either leaves the position untouched with
no events, or — for a non-failed position whose current stage is an allowed
predecessor — moves it into `stage` with the start/function/end event triple. -/
theorem millingStep_spec (stage : AutoLamellaStage) (j : Nat) (l : Lamella) :
    millingStep stage j l = (l, []) ∨
    (l.is_failure = false ∧ allowedEntry l.workflow stage ∧ ∃ fn,
      millingStep stage j l =
        ({ l with workflow := stage },
          [.startOfStage j stage, .stageFunction fn j, .endOfStage j])) := by
  cases stage
  case Created => exact Or.inl rfl
  case PositionReady => exact Or.inl rfl
  case MillTrench => exact Or.inl rfl
  case MillUndercut => exact Or.inl rfl
  case LiftoutLamella => exact Or.inl rfl
  case LandLamella => exact Or.inl rfl
  case SetupLamella => exact Or.inl rfl
  case Finished => exact Or.inl rfl
  case MillRough =>
    by_cases hw : l.workflow = .SetupLamella
    · by_cases hf : l.is_failure
      · exact Or.inl (by simp [millingStep, hf])
      · refine Or.inr ⟨by simpa using hf, ?_, .millLamella, ?_⟩
        · simp [allowedEntry, AutoLamellaStage.value, AutoLamellaStage.ofValue?, hw]
        · simp [millingStep, AutoLamellaStage.value, AutoLamellaStage.ofValue?,
            hw, hf, WORKFLOW_STAGES, start_of_stage_update, invokeStageFunction]
    · exact Or.inl (by
        simp [millingStep, AutoLamellaStage.value, AutoLamellaStage.ofValue?, hw])
  case SetupPolishing =>
    by_cases hw : l.workflow = .MillRough
    · by_cases hf : l.is_failure
      · exact Or.inl (by simp [millingStep, hf])
      · refine Or.inr ⟨by simpa using hf, ?_, .setupPolishing, ?_⟩
        · simp [allowedEntry, AutoLamellaStage.value, AutoLamellaStage.ofValue?, hw]
        · simp [millingStep, AutoLamellaStage.value, AutoLamellaStage.ofValue?,
            hw, hf, WORKFLOW_STAGES, start_of_stage_update, invokeStageFunction]
    · exact Or.inl (by
        simp [millingStep, AutoLamellaStage.value, AutoLamellaStage.ofValue?, hw])
  case MillPolishing =>
    by_cases hw : l.workflow = .MillRough ∨ l.workflow = .SetupPolishing
    · by_cases hf : l.is_failure
      · exact Or.inl (by
          rcases hw with hw | hw <;> simp [millingStep, hw, hf])
      · refine Or.inr ⟨by simpa using hf, hw, .millLamella, ?_⟩
        rcases hw with hw | hw <;>
          simp [millingStep, hw, hf, WORKFLOW_STAGES, start_of_stage_update,
            invokeStageFunction]
    · push_neg at hw
      exact Or.inl (by simp [millingStep, hw.1, hw.2])

/-- The finishing loop either leaves a position untouched with no events, or
moves a non-failed `MillPolishing` position to `Finished`. -/
theorem finishStep_spec (j : Nat) (l : Lamella) :
    finishStep j l = (l, []) ∨
    (l.is_failure = false ∧ allowedEntry l.workflow .Finished ∧
      finishStep j l =
        ({ l with workflow := .Finished },
          [.startOfStage j .Finished, .endOfStage j])) := by
  by_cases hw : l.workflow = .MillPolishing
  · by_cases hf : l.is_failure
    · exact Or.inl (by simp [finishStep, hf])
    · refine Or.inr ⟨by simpa using hf, hw, ?_⟩
      simp [finishStep, hw, hf, start_of_stage_update]
  · exact Or.inl (by simp [finishStep, hw])

theorem trenchStep_indexOf (j : Nat) (l : Lamella) :
    ∀ ev ∈ (trenchStep j l).2, ev.indexOf? = some j := by
  intro ev hev
  unfold trenchStep at hev
  split at hev <;>
    simp only [start_of_stage_update, invokeStageFunction, List.append_assoc,
      List.cons_append, List.nil_append, List.mem_cons, List.not_mem_nil,
      or_false] at hev
  rcases hev with h | h | h <;> subst h <;> rfl

theorem undercutStep_indexOf (j : Nat) (l : Lamella) :
    ∀ ev ∈ (undercutStep j l).2, ev.indexOf? = some j := by
  intro ev hev
  unfold undercutStep at hev
  split at hev <;>
    simp only [start_of_stage_update, invokeStageFunction, List.append_assoc,
      List.cons_append, List.nil_append, List.mem_cons, List.not_mem_nil,
      or_false] at hev
  · rcases hev with h | h | h | h <;> subst h <;> rfl
  · subst hev; rfl

theorem setupLamellaStep_indexOf (j : Nat) (l : Lamella) :
    ∀ ev ∈ (setupLamellaStep j l).2, ev.indexOf? = some j := by
  intro ev hev
  unfold setupLamellaStep at hev
  split at hev <;>
    simp only [start_of_stage_update, invokeStageFunction, List.append_assoc,
      List.cons_append, List.nil_append, List.mem_cons, List.not_mem_nil,
      or_false] at hev
  rcases hev with h | h | h <;> subst h <;> rfl

theorem millingStep_indexOf (stage : AutoLamellaStage) (j : Nat) (l : Lamella) :
    ∀ ev ∈ (millingStep stage j l).2, ev.indexOf? = some j := by
  intro ev hev
  rcases millingStep_spec stage j l with h | ⟨-, -, fn, h⟩ <;> rw [h] at hev
  · exact absurd hev (by simp)
  · simp only [List.mem_cons, List.not_mem_nil, or_false] at hev
    rcases hev with h | h | h <;> subst h <;> rfl

theorem finishStep_indexOf (j : Nat) (l : Lamella) :
    ∀ ev ∈ (finishStep j l).2, ev.indexOf? = some j := by
  intro ev hev
  rcases finishStep_spec j l with h | ⟨-, -, h⟩ <;> rw [h] at hev
  · exact absurd hev (by simp)
  · simp only [List.mem_cons, List.not_mem_nil, or_false] at hev
    rcases hev with h | h <;> subst h <;> rfl

theorem trenchStep_failed (j : Nat) (l : Lamella) (h : l.is_failure = true) :
    trenchStep j l = (l, []) := by
  simp [trenchStep, h]

theorem undercutStep_failed (j : Nat) (l : Lamella) (h : l.is_failure = true) :
    undercutStep j l = (l, [.logNullEnd j]) := by
  simp [undercutStep, h]

theorem setupLamellaStep_failed (j : Nat) (l : Lamella) (h : l.is_failure = true) :
    setupLamellaStep j l = (l, []) := by
  simp [setupLamellaStep, h]

theorem millingStep_failed (stage : AutoLamellaStage) (j : Nat) (l : Lamella)
    (h : l.is_failure = true) :
    millingStep stage j l = (l, []) := by
  rcases millingStep_spec stage j l with h2 | ⟨h2, -⟩
  · exact h2
  · rw [h] at h2; exact absurd h2 (by simp)

theorem finishStep_failed (j : Nat) (l : Lamella) (h : l.is_failure = true) :
    finishStep j l = (l, []) := by
  simp [finishStep, h]

/-- A pass of `run_lamella_milling` leaves a failed position unchanged and adds
no stage events for it. -/
theorem runStagePass_failed (stages_to_complete : List AutoLamellaStage)
    (acc : Experiment × List WorkflowEvent) (stage : AutoLamellaStage)
    (i : Nat) (l : Lamella) (hacc : acc.1.positions[i]? = some l)
    (hfail : l.is_failure = true) :
    (runStagePass stages_to_complete acc stage).1.positions[i]? = some l ∧
    stageEventsFor i (runStagePass stages_to_complete acc stage).2 =
      stageEventsFor i acc.2 := by
  unfold runStagePass
  split
  · constructor
    · have h := mapWithEvents_getElem? (millingStep stage) 0 acc.1.positions i
      rw [Nat.zero_add] at h
      rw [h, hacc]
      simp [millingStep_failed stage i l hfail]
    · simp only [stageEventsFor_append]
      have h := mapWithEvents_stageEventsFor (millingStep stage)
        (millingStep_indexOf stage) 0 acc.1.positions i l hacc
      rw [Nat.zero_add] at h
      rw [h, millingStep_failed stage i l hfail]
      simp [stageEventsFor]
  · exact ⟨hacc, rfl⟩

/-- Iterating passes over any stage list keeps a failed position unchanged and
adds no stage events for it. -/
theorem foldl_passes_failed (stages_to_complete ws : List AutoLamellaStage)
    (acc : Experiment × List WorkflowEvent) (i : Nat) (l : Lamella)
    (hacc : acc.1.positions[i]? = some l) (hfail : l.is_failure = true) :
    (ws.foldl (runStagePass stages_to_complete) acc).1.positions[i]? = some l ∧
    stageEventsFor i (ws.foldl (runStagePass stages_to_complete) acc).2 =
      stageEventsFor i acc.2 := by
  induction ws generalizing acc with
  | nil => exact ⟨hacc, rfl⟩
  | cons s ws ih =>
    obtain ⟨h1, h2⟩ := runStagePass_failed stages_to_complete acc s i l hacc hfail
    obtain ⟨h3, h4⟩ := ih _ h1
    rw [List.foldl_cons]
    exact ⟨h3, h4.trans h2⟩

theorem Experiment_mk_positions (ps : List Lamella) :
    (Experiment.mk ps).positions = ps := rfl

/-- The same experiment with every failure flag cleared. -/
def clearFailures (e : Experiment) : Experiment :=
  ⟨e.positions.map fun l => { l with is_failure := false }⟩

/-- The spot-burn loop never reads the failure flag. -/
theorem spotBurnLoop_clearFailures (user : Nat → Bool) (k : Nat)
    (ps : List Lamella) :
    spotBurnLoop user k (ps.map fun l => { l with is_failure := false }) =
      spotBurnLoop user k ps := by
  induction ps generalizing k with
  | nil => rfl
  | cons l ls ih => simp [spotBurnLoop, ih]

/-- C1 (amended): a position whose failure flag is set is skipped — its record
unchanged, no stage update or stage-function invocation — by
`run_trench_milling`, `run_undercut_milling`, `run_setup_lamella` and
`run_lamella_milling`; `run_spot_burn_workflow`, by contrast, never consults
the failure flag: it behaves identically on the experiment with all failure
flags cleared. -/
theorem C1_failed_positions (e : Experiment) (stages : List AutoLamellaStage)
    (i : Nat) (l : Lamella) (hl : e.positions[i]? = some l)
    (hfail : l.is_failure = true) :
    (∀ e2 tr, run_trench_milling e = .ok (e2, tr) →
      e2.positions[i]? = some l ∧ stageEventsFor i tr = []) ∧
    ((run_undercut_milling e).1.positions[i]? = some l ∧
      stageEventsFor i (run_undercut_milling e).2 = []) ∧
    (∀ e2 tr, run_setup_lamella e = .ok (e2, tr) →
      e2.positions[i]? = some l ∧ stageEventsFor i tr = []) ∧
    (∀ e2 tr, run_lamella_milling stages e = .ok (e2, tr) →
      e2.positions[i]? = some l ∧ stageEventsFor i tr = []) ∧
    (∀ user, run_spot_burn_workflow e user =
      run_spot_burn_workflow (clearFailures e) user) := by
  have hTrenchPos := mapWithEvents_getElem? trenchStep 0 e.positions i
  rw [Nat.zero_add] at hTrenchPos
  have hTrenchEv := mapWithEvents_stageEventsFor trenchStep trenchStep_indexOf
    0 e.positions i l hl
  rw [Nat.zero_add] at hTrenchEv
  have hCutPos := mapWithEvents_getElem? undercutStep 0 e.positions i
  rw [Nat.zero_add] at hCutPos
  have hCutEv := mapWithEvents_stageEventsFor undercutStep undercutStep_indexOf
    0 e.positions i l hl
  rw [Nat.zero_add] at hCutEv
  have hSetPos := mapWithEvents_getElem? setupLamellaStep 0 e.positions i
  rw [Nat.zero_add] at hSetPos
  have hSetEv := mapWithEvents_stageEventsFor setupLamellaStep
    setupLamellaStep_indexOf 0 e.positions i l hl
  rw [Nat.zero_add] at hSetEv
  refine ⟨?_, ?_, ?_, ?_, ?_⟩
  · intro e2 tr hrun
    simp only [run_trench_milling] at hrun
    split at hrun
    · exact absurd hrun (by simp)
    · simp only [Except.ok.injEq, Prod.mk.injEq] at hrun
      obtain ⟨he, ht⟩ := hrun
      subst he
      subst ht
      constructor
      · simp only [Experiment_mk_positions, hTrenchPos, hl, Option.map,
          trenchStep_failed i l hfail]
      · rw [stageEventsFor_append, hTrenchEv, trenchStep_failed i l hfail]
        rfl
  · constructor
    · simp only [run_undercut_milling, Experiment_mk_positions, hCutPos, hl,
        Option.map, undercutStep_failed i l hfail]
    · simp only [run_undercut_milling]
      rw [hCutEv, undercutStep_failed i l hfail]
      rfl
  · intro e2 tr hrun
    simp only [run_setup_lamella] at hrun
    split at hrun
    · exact absurd hrun (by simp)
    · simp only [Except.ok.injEq, Prod.mk.injEq] at hrun
      obtain ⟨he, ht⟩ := hrun
      subst he
      subst ht
      constructor
      · simp only [Experiment_mk_positions, hSetPos, hl, Option.map,
          setupLamellaStep_failed i l hfail]
      · rw [stageEventsFor_append, hSetEv, setupLamellaStep_failed i l hfail]
        rfl
  · intro e2 tr hrun
    simp only [run_lamella_milling] at hrun
    split at hrun
    · exact absurd hrun (by simp)
    · simp only [Except.ok.injEq, Prod.mk.injEq] at hrun
      obtain ⟨he, ht⟩ := hrun
      obtain ⟨hp1, hp2⟩ :=
        foldl_passes_failed stages LAMELLA_MILLING_WORKFLOW (e, []) i l hl hfail
      have hFinPos := mapWithEvents_getElem? finishStep 0
        (LAMELLA_MILLING_WORKFLOW.foldl (runStagePass stages) (e, [])).1.positions i
      rw [Nat.zero_add] at hFinPos
      have hFinEv := mapWithEvents_stageEventsFor finishStep finishStep_indexOf 0
        (LAMELLA_MILLING_WORKFLOW.foldl (runStagePass stages) (e, [])).1.positions
        i l hp1
      rw [Nat.zero_add] at hFinEv
      subst he
      subst ht
      constructor
      · simp only [Experiment_mk_positions, hFinPos, hp1, Option.map,
          finishStep_failed i l hfail]
      · rw [stageEventsFor_append, stageEventsFor_append, hFinEv,
          finishStep_failed i l hfail, hp2]
        simp [stageEventsFor, WorkflowEvent.isStageEventFor]
  · intro user
    unfold run_spot_burn_workflow clearFailures
    rw [Experiment_mk_positions, spotBurnLoop_clearFailures]

/-- C1 counterexample: the experiment's only position has its failure flag set,
yet `run_spot_burn_workflow` does not skip it — it moves the microscope stage
to it, acquires reference images and prompts the user. -/
theorem C1_spot_burn_not_skipped_counterexample :
    (Experiment.mk [Lamella.mk .PositionReady true]).positions.all
        (fun l => l.is_failure) = true ∧
    run_spot_burn_workflow (Experiment.mk [Lamella.mk .PositionReady true])
        (fun _ => false) =
      [.moveStage 0, .acquireImages 0 .refSpotBurnStart,
        .askUser .spotBurnContinue] :=
  ⟨rfl, rfl⟩

/-- Witness for C1 at a concrete failed position, evaluating
`run_undercut_milling`. -/
theorem C1_failed_positions_witness :
    ((Experiment.mk [Lamella.mk .MillTrench true]).positions[0]? =
        some (Lamella.mk .MillTrench true) ∧
      (Lamella.mk .MillTrench true).is_failure = true) ∧
    ((run_undercut_milling
          (Experiment.mk [Lamella.mk .MillTrench true])).1.positions[0]? =
        some (Lamella.mk .MillTrench true) ∧
      stageEventsFor 0
        (run_undercut_milling (Experiment.mk [Lamella.mk .MillTrench true])).2 =
        []) :=
  ⟨⟨rfl, rfl⟩,
    (C1_failed_positions (Experiment.mk [Lamella.mk .MillTrench true]) [] 0
      (Lamella.mk .MillTrench true) rfl rfl).2.1⟩

/-- C9: on an experiment whose position list is empty, `run_trench_milling`,
`run_setup_lamella` and `run_lamella_milling` do not return an experiment:
the `log_status_message(lamella, "NULL_END")` after their loops reads the
loop variable, which was never bound (Python `UnboundLocalError`). -/
theorem C9_empty_experiment_unbound_error (stages : List AutoLamellaStage) :
    run_trench_milling (Experiment.mk []) = .error .unboundLocalError ∧
    run_setup_lamella (Experiment.mk []) = .error .unboundLocalError ∧
    run_lamella_milling stages (Experiment.mk []) = .error .unboundLocalError :=
  ⟨rfl, rfl, rfl⟩

theorem trenchStep_ready (j : Nat) (l : Lamella)
    (h1 : l.workflow = .PositionReady) (h2 : l.is_failure = false) :
    trenchStep j l = ({ l with workflow := .MillTrench },
      [.startOfStage j .MillTrench, .stageFunction .millTrench j,
        .endOfStage j]) := by
  simp [trenchStep, h1, h2, start_of_stage_update, invokeStageFunction]

theorem trenchStep_not_ready (j : Nat) (l : Lamella)
    (h : ¬(l.workflow = .PositionReady ∧ l.is_failure = false)) :
    trenchStep j l = (l, []) := by
  unfold trenchStep
  split
  · rename_i hcond
    simp only [Bool.and_eq_true, beq_iff_eq, Bool.not_eq_true'] at hcond
    exact absurd hcond h
  · rfl

/-- C4: `run_trench_milling` advances exactly the non-failed positions whose
workflow stage is `PositionReady`: each gets, in this order, the stage update
to `MillTrench`, the `mill_trench` invocation and the end-of-stage update, and
its record is moved to `MillTrench`; every other position keeps its record,
with no stage events.  (The loop trace is the in-order concatenation of the
per-position event blocks, so positions are processed in list order.) -/
theorem C4_run_trench_milling (e : Experiment) (i : Nat) (l : Lamella)
    (hl : e.positions[i]? = some l) (e2 : Experiment) (tr : List WorkflowEvent)
    (hrun : run_trench_milling e = .ok (e2, tr)) :
    (l.workflow = .PositionReady ∧ l.is_failure = false →
      e2.positions[i]? = some { l with workflow := .MillTrench } ∧
      stageEventsFor i tr = [.startOfStage i .MillTrench,
        .stageFunction .millTrench i, .endOfStage i]) ∧
    (¬(l.workflow = .PositionReady ∧ l.is_failure = false) →
      e2.positions[i]? = some l ∧ stageEventsFor i tr = []) := by
  have hPos := mapWithEvents_getElem? trenchStep 0 e.positions i
  rw [Nat.zero_add] at hPos
  have hEv := mapWithEvents_stageEventsFor trenchStep trenchStep_indexOf
    0 e.positions i l hl
  rw [Nat.zero_add] at hEv
  simp only [run_trench_milling] at hrun
  split at hrun
  · exact absurd hrun (by simp)
  · simp only [Except.ok.injEq, Prod.mk.injEq] at hrun
    obtain ⟨he, ht⟩ := hrun
    subst he
    subst ht
    constructor
    · intro hready
      constructor
      · simp only [Experiment_mk_positions, hPos, hl, Option.map,
          trenchStep_ready i l hready.1 hready.2]
      · rw [stageEventsFor_append, hEv, trenchStep_ready i l hready.1 hready.2]
        simp [stageEventsFor, WorkflowEvent.isStageEventFor]
    · intro hnot
      constructor
      · simp only [Experiment_mk_positions, hPos, hl, Option.map,
          trenchStep_not_ready i l hnot]
      · rw [stageEventsFor_append, hEv, trenchStep_not_ready i l hnot]
        rfl

/-- Witness for C4 at a one-position experiment at `PositionReady`. -/
theorem C4_run_trench_milling_witness :
    (Experiment.mk [Lamella.mk .MillTrench false]).positions[0]? =
        some (Lamella.mk .MillTrench false) ∧
    stageEventsFor 0
        [.startOfStage 0 .MillTrench, .stageFunction .millTrench 0,
          .endOfStage 0, .logNullEnd 0] =
      [.startOfStage 0 .MillTrench, .stageFunction .millTrench 0,
        .endOfStage 0] :=
  (C4_run_trench_milling (Experiment.mk [Lamella.mk .PositionReady false]) 0
      (Lamella.mk .PositionReady false) rfl
      (Experiment.mk [Lamella.mk .MillTrench false])
      [.startOfStage 0 .MillTrench, .stageFunction .millTrench 0,
        .endOfStage 0, .logNullEnd 0] rfl).1 ⟨rfl, rfl⟩

/-- Appending a link at the end of a chain. -/
theorem chain_snoc {α : Type} (R : α → α → Prop) (a b : α) (xs : List α)
    (h1 : List.Chain R a xs) (h2 : R (xs.getLastD a) b) :
    List.Chain R a (xs ++ [b]) := by
  induction xs generalizing a with
  | nil => exact List.chain_cons.mpr ⟨h2, List.Chain.nil⟩
  | cons x xs ih =>
    obtain ⟨hax, hchain⟩ := List.chain_cons.mp h1
    rw [List.getLastD_cons] at h2
    exact List.chain_cons.mpr ⟨hax, ih x hchain h2⟩

/-- A pass either applies `millingStep` to position `i`, appending the loop's
events to the trace, or — when the stage is skipped — changes nothing. -/
theorem runStagePass_position (stages_to_complete : List AutoLamellaStage)
    (acc : Experiment × List WorkflowEvent) (stage : AutoLamellaStage)
    (i : Nat) (l : Lamella) (hacc : acc.1.positions[i]? = some l) :
    (∃ seg, (runStagePass stages_to_complete acc stage).1.positions[i]? =
        some (millingStep stage i l).1 ∧
      (runStagePass stages_to_complete acc stage).2 = acc.2 ++ seg ∧
      enteredStages i seg = enteredStages i (millingStep stage i l).2) ∨
    runStagePass stages_to_complete acc stage = acc := by
  unfold runStagePass
  split
  · left
    refine ⟨(mapWithEvents (millingStep stage) 0 acc.1.positions).2, ?_, rfl, ?_⟩
    · have h := mapWithEvents_getElem? (millingStep stage) 0 acc.1.positions i
      rw [Nat.zero_add] at h
      simp only [Experiment_mk_positions, h, hacc, Option.map]
    · have h := mapWithEvents_enteredStages (millingStep stage)
        (millingStep_indexOf stage) 0 acc.1.positions i l hacc
      rw [Nat.zero_add] at h
      exact h
  · right
    rfl

/-- Through any sequence of milling passes, the stages position `i` enters form
an `allowedEntry` chain from its initial workflow stage, and its final workflow
stage is the last stage entered. -/
theorem foldl_passes_chain (stages_to_complete ws : List AutoLamellaStage)
    (hws : ∀ s ∈ ws, s = .MillRough ∨ s = .SetupPolishing ∨ s = .MillPolishing)
    (acc : Experiment × List WorkflowEvent) (i : Nat) (l : Lamella)
    (hacc : acc.1.positions[i]? = some l) :
    ∃ l2 seg,
      (ws.foldl (runStagePass stages_to_complete) acc).1.positions[i]? = some l2 ∧
      (ws.foldl (runStagePass stages_to_complete) acc).2 = acc.2 ++ seg ∧
      List.Chain allowedEntry l.workflow (enteredStages i seg) ∧
      l2.workflow = (enteredStages i seg).getLastD l.workflow := by
  induction ws generalizing acc l with
  | nil =>
    exact ⟨l, [], hacc, (List.append_nil acc.2).symm, List.Chain.nil, rfl⟩
  | cons s ws ih =>
    have hws2 : ∀ u ∈ ws, u = .MillRough ∨ u = .SetupPolishing ∨
        u = .MillPolishing := fun u hu => hws u (List.mem_cons_of_mem s hu)
    rw [List.foldl_cons]
    rcases runStagePass_position stages_to_complete acc s i l hacc with
      ⟨seg1, hpos, htr, hent⟩ | hskip
    · rcases millingStep_spec s i l with hid | ⟨hf, hallow, fn, hfired⟩
      · rw [hid] at hpos hent
        have hent1 : enteredStages i seg1 = [] := by
          simpa [enteredStages] using hent
        obtain ⟨l2, seg2, h1, h2, h3, h4⟩ := ih hws2 _ _ hpos
        refine ⟨l2, seg1 ++ seg2, h1, ?_, ?_, ?_⟩
        · rw [h2, htr, List.append_assoc]
        · rw [enteredStages_append, hent1, List.nil_append]
          exact h3
        · rw [enteredStages_append, hent1, List.nil_append]
          exact h4
      · rw [hfired] at hpos hent
        have hent1 : enteredStages i seg1 = [s] := by
          simpa [enteredStages] using hent
        obtain ⟨l2, seg2, h1, h2, h3, h4⟩ := ih hws2 _ _ hpos
        have h3w : List.Chain allowedEntry s (enteredStages i seg2) := h3
        have h4w : l2.workflow = (enteredStages i seg2).getLastD s := h4
        refine ⟨l2, seg1 ++ seg2, h1, ?_, ?_, ?_⟩
        · rw [h2, htr, List.append_assoc]
        · rw [enteredStages_append, hent1, List.cons_append, List.nil_append]
          exact List.chain_cons.mpr ⟨hallow, h3w⟩
        · rw [enteredStages_append, hent1, List.cons_append, List.nil_append,
            List.getLastD_cons]
          exact h4w
    · rw [hskip]
      exact ih hws2 acc l hacc

/-- C2: through `run_lamella_milling` (any requested stage subset), the stages
each position enters — in trace order — form a chain in the `allowedEntry`
relation starting at the position's initial workflow stage: `MillRough` and
`SetupPolishing` are entered only from the stage whose enum value is one less,
`MillPolishing` only from `MillRough` or `SetupPolishing` (`SetupPolishing`
optional), and `Finished` only from `MillPolishing`.  The runner attempts the
stages in the fixed order `MillRough`, `SetupPolishing`, `MillPolishing`, so
this is exactly the claim's state machine. -/
theorem C2_lamella_milling_state_machine (stages : List AutoLamellaStage)
    (e : Experiment) (i : Nat) (l : Lamella) (hl : e.positions[i]? = some l)
    (e2 : Experiment) (tr : List WorkflowEvent)
    (hrun : run_lamella_milling stages e = .ok (e2, tr)) :
    List.Chain allowedEntry l.workflow (enteredStages i tr) := by
  simp only [run_lamella_milling] at hrun
  split at hrun
  · exact absurd hrun (by simp)
  · simp only [Except.ok.injEq, Prod.mk.injEq] at hrun
    obtain ⟨he, ht⟩ := hrun
    obtain ⟨l2, seg, h1, h2, h3, h4⟩ := foldl_passes_chain stages
      LAMELLA_MILLING_WORKFLOW (by decide) (e, []) i l hl
    have hFinEnt := mapWithEvents_enteredStages finishStep finishStep_indexOf 0
      (LAMELLA_MILLING_WORKFLOW.foldl (runStagePass stages) (e, [])).1.positions
      i l2 h1
    rw [Nat.zero_add] at hFinEnt
    subst ht
    have hA : enteredStages i
        (LAMELLA_MILLING_WORKFLOW.foldl (runStagePass stages) (e, [])).2 =
        enteredStages i seg := by
      rw [h2, enteredStages_append]
      exact List.nil_append (enteredStages i seg)
    rw [enteredStages_append, enteredStages_append, hA, hFinEnt]
    have hC : ∀ m, enteredStages i [WorkflowEvent.logNullEnd m] = [] :=
      fun m => rfl
    rw [hC, List.append_nil]
    rcases finishStep_spec i l2 with hid | ⟨hf, hallow, hfired⟩
    · have hid2 : enteredStages i (finishStep i l2).2 = [] := by
        rw [hid]
        rfl
      rw [hid2, List.append_nil]
      exact h3
    · have hfired2 : enteredStages i (finishStep i l2).2 = [.Finished] := by
        rw [hfired]
        simp [enteredStages]
      rw [hfired2]
      exact chain_snoc allowedEntry l.workflow .Finished
        (enteredStages i seg) h3 (h4 ▸ hallow)

/-- Witness for C2: a single non-failed position at `SetupLamella` runs through
`MillRough`, `SetupPolishing`, `MillPolishing` and `Finished`. -/
theorem C2_lamella_milling_state_machine_witness :
    (Experiment.mk [Lamella.mk .SetupLamella false]).positions[0]? =
        some (Lamella.mk .SetupLamella false) ∧
    List.Chain allowedEntry (Lamella.mk .SetupLamella false).workflow
      (enteredStages 0
        [.startOfStage 0 .MillRough, .stageFunction .millLamella 0,
          .endOfStage 0, .startOfStage 0 .SetupPolishing,
          .stageFunction .setupPolishing 0, .endOfStage 0,
          .startOfStage 0 .MillPolishing, .stageFunction .millLamella 0,
          .endOfStage 0, .startOfStage 0 .Finished, .endOfStage 0,
          .logNullEnd 0]) :=
  ⟨rfl, C2_lamella_milling_state_machine LAMELLA_MILLING_WORKFLOW
    (Experiment.mk [Lamella.mk .SetupLamella false]) 0
    (Lamella.mk .SetupLamella false) rfl
    (Experiment.mk [Lamella.mk .Finished false]) _ rfl⟩

/-- The trace of a composite runner's outcome (empty for the error outcome). -/
def runnerTrace :
    Except RunnerError (Experiment × List WorkflowEvent × Nat) →
      List WorkflowEvent
  | .ok r => r.2.1
  | .error _ => []

/-- C3 counterexample: with every supervision flag set and a position at
`PositionReady`, the very first action of `run_autolamella_waffle` is the stage
update advancing position 0 into the supervised `MillTrench` stage — no user
confirmation precedes it. -/
theorem C3_no_confirmation_counterexample :
    (AutoLamellaProtocol.mk fun _ => true).supervision .MillTrench = true ∧
    (runnerTrace (run_autolamella_waffle (AutoLamellaProtocol.mk fun _ => true)
        waffleWorkflow (Experiment.mk [Lamella.mk .PositionReady false])
        (fun _ => true) 0)).head? =
      some (.startOfStage 0 .MillTrench) :=
  ⟨rfl, rfl⟩

/-- C3 (amended): runner-level supervision confirmation exists only at the
`MillUndercut` and `SetupLamella` gates.  For the `MillUndercut` gate: when the
supervision flag for `MillUndercut` is set, `MillUndercut` is among the
requested stages and every position is at `MillTrench`,
`run_autolamella_waffle` asks the user before any position is advanced (the
prompt is the only event emitted up to that point), and if the user declines
the runner returns the experiment unchanged, running no stage function and no
later stage.  Supervised stages without a runner-level gate (e.g. `MillTrench`,
see the counterexample) get no confirmation. -/
theorem C3_undercut_supervision_gate (protocol : AutoLamellaProtocol)
    (stages : List AutoLamellaStage) (e : Experiment) (user : Nat → Bool)
    (hall : ∀ l ∈ e.positions, l.workflow = .MillTrench)
    (hne : e.positions ≠ [])
    (hsup : protocol.supervision .MillUndercut = true)
    (hmem : AutoLamellaStage.MillUndercut ∈ stages)
    (hdecline : user 0 = false) :
    run_autolamella_waffle protocol stages e user 0 =
      .ok (e, [.askUser .continueToMillUndercut], 1) := by
  have hnotready : e.at_stage .PositionReady = false := by
    simp only [Experiment.at_stage, List.any_eq_false]
    intro l hl
    simp [hall l hl]
  have hat : e.at_stage .MillTrench = true := by
    simp only [Experiment.at_stage, List.any_eq_true]
    obtain ⟨l, hl⟩ := List.exists_mem_of_ne_nil e.positions hne
    exact ⟨l, hl, by simp [hall l hl]⟩
  unfold run_autolamella_waffle
  rw [if_neg (by simp [hnotready])]
  simp only [ask_user_continue_workflow, ask_user, hsup, if_true]
  rw [if_pos ⟨hmem, hat⟩]
  simp [hdecline]

/-- Witness for C3 (amended) at a one-position experiment at `MillTrench`,
with supervision enabled and a declining user. -/
theorem C3_undercut_supervision_gate_witness :
    ((∀ l ∈ (Experiment.mk [Lamella.mk .MillTrench false]).positions,
        l.workflow = .MillTrench) ∧
      (Experiment.mk [Lamella.mk .MillTrench false]).positions ≠ [] ∧
      (AutoLamellaProtocol.mk fun _ => true).supervision .MillUndercut = true ∧
      AutoLamellaStage.MillUndercut ∈ waffleWorkflow ∧
      (fun (_ : Nat) => false) 0 = false) ∧
    run_autolamella_waffle (AutoLamellaProtocol.mk fun _ => true) waffleWorkflow
        (Experiment.mk [Lamella.mk .MillTrench false]) (fun _ => false) 0 =
      .ok (Experiment.mk [Lamella.mk .MillTrench false],
        [.askUser .continueToMillUndercut], 1) :=
  ⟨⟨by decide, by decide, rfl, by decide, rfl⟩,
    C3_undercut_supervision_gate (AutoLamellaProtocol.mk fun _ => true)
      waffleWorkflow (Experiment.mk [Lamella.mk .MillTrench false])
      (fun _ => false) (by decide) (by decide) rfl (by decide) rfl⟩
